import Mathlib

/-!
Verification of the segment-postprocessing, transform, alignment and caching
pipeline of the guitar-chords-generator repository.

The repository ships the Next.js client (`client/pages/index.jsx`,
`client/components/ChordDiagram.jsx`) and server shell scripts; the Python
backend (`server/app.py`, `server/chordino.py`, `server/lyrics_align.py`)
that implements SegmentMerger, ChordTransformer, LyricAligner and
AnalysisCache is not part of the available sources.  Definitions for those
components are therefore modelled from the specification and are marked as
such; definitions for the client components are translated directly from
the JSX sources.

Timestamps and durations (floats measured in seconds in the program) are
modelled exactly in fixed-point milliseconds, as integers: `1` here is one
millisecond, so the 150 ms minimum segment duration is `150`, the 50 ms
downbeat tolerance is `50`, and a lyric timestamp of 3.0 s is `3000`.
-/

/-- One fixed-hop detector sample: a timestamp and a chord label
(`"N"` is the no-chord sentinel). -/
structure ChordFrame where
  timestamp : ℤ
  label : String
deriving DecidableEq

/-- A chord segment `{start, end, label}`.  The JS field `end` is a Lean
keyword, so it is called `stop` here. -/
structure ChordSegment where
  start : ℤ
  stop : ℤ
  label : String
deriving DecidableEq

/-- Modelled from the spec: SegmentMerger step 1 boundary scan
(the server-side merge code in `server/app.py` / `server/chordino.py` is
not among the available sources).  Given the label of the currently open
provisional segment, emit a `(timestamp, label)` boundary each time the
frame label changes. -/
def boundAux (curLabel : String) : List ChordFrame → List (ℤ × String)
  | [] => []
  | f :: fs =>
    if f.label = curLabel then boundAux curLabel fs
    else (f.timestamp, f.label) :: boundAux f.label fs

/-- Modelled from the spec: turn the run boundaries into segments; each
segment ends where the next begins and the final segment's end is the
total duration. -/
def runsToSegments : List (ℤ × String) → ℤ → List ChordSegment
  | [], _ => []
  | [(t, l)], d => [⟨t, d, l⟩]
  | (t, l) :: (t2, l2) :: rest, d => ⟨t, t2, l⟩ :: runsToSegments ((t2, l2) :: rest) d

/-- Modelled from the spec: SegmentMerger step 1.  Consecutive frames with
an identical label become one provisional segment; the list covers the
track from 0; an empty frame list yields a single `"N"` segment spanning
`[0, duration)`. -/
def framesToSegments (frames : List ChordFrame) (duration : ℤ) : List ChordSegment :=
  match frames with
  | [] => [⟨0, duration, "N"⟩]
  | f :: fs => runsToSegments ((0, f.label) :: boundAux f.label fs) duration

/-- The fixed minimum segment duration of 150 ms. -/
def minSegDur : ℤ := 150

/-- A segment shorter than the minimum duration. -/
def segShort (s : ChordSegment) : Bool := s.stop - s.start < minSegDur

/-- Modelled from the spec: merge now-adjacent segments that share an
identical label (SegmentMerger step 3), scanning left to right with the
currently open segment carried along. -/
def mergeInto (s : ChordSegment) : List ChordSegment → List ChordSegment
  | [] => [s]
  | s2 :: rest =>
    if s.label = s2.label then mergeInto ⟨s.start, s2.stop, s.label⟩ rest
    else s :: mergeInto s2 rest

/-- Merge every group of adjacent segments that share an identical label. -/
def mergeAdjacent : List ChordSegment → List ChordSegment
  | [] => []
  | s :: rest => mergeInto s rest

/-- Modelled from the spec: scan for a short segment that has a preceding
neighbour `p`; remove it and extend `p`'s end to absorb its span. -/
def absorbAux (p : ChordSegment) : List ChordSegment → Option (List ChordSegment)
  | [] => none
  | s :: rest =>
    if segShort s then some ({ p with stop := s.stop } :: rest)
    else (absorbAux s rest).map (fun r => p :: r)

/-- Modelled from the spec: SegmentMerger step 2, one removal.  Find the
first segment shorter than the minimum duration and redistribute its time
span: the preceding segment absorbs it if one exists, otherwise the
following segment's start is extended backward.  A single-segment list is
left unchanged (`none` = no removal applicable). -/
def absorbFirstShort : List ChordSegment → Option (List ChordSegment)
  | [] => none
  | s :: rest =>
    if segShort s then
      match rest with
      | [] => none
      | s2 :: rest2 => some ({ s2 with start := s.start } :: rest2)
    else absorbAux s rest

/-- One iteration of SegmentMerger steps 2-3: a removal followed by
re-merging of now-adjacent equal labels. -/
def absorbStep (l : List ChordSegment) : Option (List ChordSegment) :=
  (absorbFirstShort l).map mergeAdjacent

/-- Fuelled repetition of `absorbStep` to a fixed point. -/
def segLoop : ℕ → List ChordSegment → List ChordSegment
  | 0, l => l
  | n + 1, l =>
    match absorbStep l with
    | none => l
    | some l2 => segLoop n l2

/-- Modelled from the spec: SegmentMerger steps 2-3 repeated to a fixed
point (each removal shortens the list, so `l.length` steps suffice). -/
def absorbShort (l : List ChordSegment) : List ChordSegment :=
  segLoop l.length l

/-- Modelled from the spec: the complete SegmentMerger — the provisional
scan followed by short-segment absorption to a fixed point. -/
def segmentMerger (frames : List ChordFrame) (duration : ℤ) : List ChordSegment :=
  absorbShort (framesToSegments frames duration)

/-- Re-running the segment-level merge/short-segment-absorption algorithm
on an existing segment list. -/
def segmentPostprocess (l : List ChordSegment) : List ChordSegment :=
  absorbShort (mergeAdjacent l)

/-- `coversB a b segs` holds when `segs` is nonempty, time-sorted and
contiguous (each segment's end is the next segment's start), every segment
satisfies `start < stop`, and the segments cover exactly `[a, b)`. -/
def coversB (a b : ℤ) : List ChordSegment → Bool
  | [] => a == b
  | s :: rest => s.start == a && a < s.stop && coversB s.stop b rest

/-- No two adjacent segments share a label. -/
def noAdjEq : List ChordSegment → Prop :=
  List.Chain' (fun s t => s.label ≠ t.label)

/-- The fixed 12-element sharp-spelled pitch-class scale of the
ChordTransformer, as character lists. -/
def noteNames : List (List Char) :=
  [['C'], ['C', '#'], ['D'], ['D', '#'], ['E'], ['F'], ['F', '#'],
   ['G'], ['G', '#'], ['A'], ['A', '#'], ['B']]

/-- Index of a root spelling in a list of spellings. -/
def idxOf (cs : List Char) : List (List Char) → Option ℕ
  | [] => none
  | e :: rest => if cs = e then some 0 else (idxOf cs rest).map (· + 1)

/-- Index of a root spelling in the fixed scale. -/
def noteIdx (cs : List Char) : Option ℕ := idxOf cs noteNames

/-- Modelled from the spec: split a chord label into root + suffix
(the ChordTransformer in `server/app.py` is not among the available
sources).  The root is the longest leading spelling found in the scale —
a sharp two-character root when present, otherwise a natural
one-character root; labels with no scale root do not split. -/
def splitRoot : List Char → Option (ℕ × List Char)
  | [] => none
  | [c] => (noteIdx [c]).map (fun i => (i, ([] : List Char)))
  | c1 :: c2 :: rest =>
    match noteIdx [c1, c2] with
    | some i => some (i, rest)
    | none => (noteIdx [c1]).map (fun i => (i, c2 :: rest))

/-- The scale spelling at index `i`, as a string. -/
def noteStr (i : ℕ) : String := ⟨noteNames.getD i []⟩

/-- Modelled from the spec: transpose one label by `n` semitones.  The
sentinel `"N"` and labels with no scale root pass through unchanged; for
the rest the root index is shifted by `n` normalized into `[0, 12)` and
re-joined with the original suffix. -/
def transposeChars (n : ℤ) (cs : List Char) : List Char :=
  if cs = ['N'] then cs
  else
    match splitRoot cs with
    | none => cs
    | some (i, suf) => noteNames.getD (((i : ℤ) + n) % 12).toNat [] ++ suf

/-- Transpose one chord label (string form). -/
def transposeLabel (n : ℤ) (label : String) : String := ⟨transposeChars n label.data⟩

/-- Modelled from the spec: ChordTransformer transpose over a segment
list; only labels change. -/
def transposeSegments (n : ℤ) (segs : List ChordSegment) : List ChordSegment :=
  segs.map fun s => { s with label := transposeLabel n s.label }

/-- A label is well formed when it is unsplittable (this includes `"N"`)
or its suffix does not itself begin with a `'#'` — i.e. it is a chord
name in the sharp-only spelling of the scale (pathological spellings such
as `"E#m"` or `"C##"` are excluded). -/
def labelOk (label : String) : Bool :=
  match splitRoot label.data with
  | none => true
  | some (_, suf) =>
    match suf with
    | '#' :: _ => false
    | _ => true

/-- Modelled from the spec: does the suffix contain an `'m'` that is not
immediately followed by `"aj"`?  Such a label keeps the minor quality in
simple mode. -/
def hasBareM : List Char → Bool
  | [] => false
  | 'm' :: 'a' :: 'j' :: rest => hasBareM rest
  | 'm' :: _ => true
  | _ :: rest => hasBareM rest

/-- Modelled from the spec: simple-mode reduction of one label.  The
sentinel `"N"` and rootless labels pass through; otherwise the suffix is
reduced to `"m"` when the label is minor and to `""` otherwise. -/
def simplifyChars (cs : List Char) : List Char :=
  if cs = ['N'] then cs
  else
    match splitRoot cs with
    | none => cs
    | some (i, suf) =>
      if hasBareM suf then noteNames.getD i [] ++ ['m']
      else noteNames.getD i []

/-- Simple-mode reduction of one chord label (string form). -/
def simplifyLabel (label : String) : String := ⟨simplifyChars label.data⟩

/-- The rendering mode of the ChordTransformer. -/
inductive ChordMode where
  | simple
  | full
deriving DecidableEq

/-- Modelled from the spec: mode application — `full` preserves the
label, `simple` reduces it. -/
def applyMode : ChordMode → String → String
  | .simple, l => simplifyLabel l
  | .full, l => l

/-- Membership of `t` in the half-open interval `[start, stop)` of a
segment. -/
def segContains (s : ChordSegment) (t : ℤ) : Bool := s.start ≤ t && t < s.stop

/-- Modelled from the spec: the LyricAligner chord lookup for a lyric
timestamp `t` (`server/lyrics_align.py` is not among the available
sources).  The chord bound to `t` is the label of the segment whose
`[start, end)` interval contains `t`; failing that, of the first segment
whose start exceeds `t`; failing that, the sentinel `"N"`. -/
def alignChord (segs : List ChordSegment) (t : ℤ) : String :=
  match segs.find? (fun s => segContains s t) with
  | some s => s.label
  | none =>
    match segs.find? (fun s => t < s.start) with
    | some s => s.label
    | none => "N"

/-- Translated from `client/pages/index.jsx` (`getCurrentChord`): the
first chord segment whose `[start, end)` interval contains the playback
time. -/
def getCurrentChord (chords : List ChordSegment) (t : ℤ) : Option ChordSegment :=
  chords.find? (fun c => c.start ≤ t && t < c.stop)

/-- Modelled from the spec: the control point of one caller of
`withSingleFlight` (the AnalysisCache in `server/app.py` is not among the
available sources).  `done r` carries the caller's final result — `some v`
a successful `RawAnalysis`, `none` a failure. -/
inductive FlightPC (V : Type) where
  | start : FlightPC V
  | waiting : FlightPC V
  | owner : FlightPC V
  | done : Option V → FlightPC V
deriving DecidableEq

/-- Modelled from the spec: the shared mutable state of the cache — the
stored entry, the in-flight registration flag, the published result of a
completed flight, and a count of how many times `computeFn` was started. -/
structure CacheCore (V : Type) where
  cached : Option V
  flight : Bool
  fres : Option (Option V)
  runs : ℕ
deriving DecidableEq

/-- Modelled from the spec: one atomic event-loop step of a caller.  From
`start`, a cache hit completes immediately; otherwise the caller either
joins an existing flight or atomically registers one and starts
`computeFn`.  The owner's completion removes the registration, publishes
the outcome, and on success stores it via `putRaw`.  A waiter completes
once the flight's result is published. -/
def callerStep {V : Type} (outcome : Option V) :
    FlightPC V → CacheCore V → FlightPC V × CacheCore V
  | .start, sh =>
    match sh.cached with
    | some v => (.done (some v), sh)
    | none =>
      if sh.flight then (.waiting, sh)
      else (.owner, { sh with flight := true, runs := sh.runs + 1 })
  | .owner, sh =>
    (.done outcome,
      { sh with
        flight := false
        fres := some outcome
        cached := match outcome with | some v => some v | none => sh.cached })
  | .waiting, sh =>
    match sh.fres with
    | some r => (.done r, sh)
    | none => (.waiting, sh)
  | .done r, sh => (.done r, sh)

/-- Two concurrent callers A and B over the shared cache state. -/
structure FlightSys (V : Type) where
  core : CacheCore V
  pcA : FlightPC V
  pcB : FlightPC V
deriving DecidableEq

/-- Interleaving: scheduler choice `true` steps caller A, `false` steps
caller B. -/
def sysStep {V : Type} (outcome : Option V) (choice : Bool) (s : FlightSys V) :
    FlightSys V :=
  if choice then
    let r := callerStep outcome s.pcA s.core
    { s with pcA := r.1, core := r.2 }
  else
    let r := callerStep outcome s.pcB s.core
    { s with pcB := r.1, core := r.2 }

/-- Run a whole schedule of interleaved caller steps. -/
def sysExec {V : Type} (outcome : Option V) : List Bool → FlightSys V → FlightSys V
  | [], s => s
  | c :: cs, s => sysExec outcome cs (sysStep outcome c s)

/-- Both callers about to request the same track, no cached entry, no
flight in progress. -/
def sysInit (V : Type) : FlightSys V :=
  ⟨⟨none, false, none, 0⟩, FlightPC.start, FlightPC.start⟩

/-- Inductive invariant of the two-caller single-flight system when the
computation succeeds with value `v`: either nothing has happened, or
exactly one caller owns the single registered flight, or the flight has
completed — the registration is gone, `v` is cached, and every finished
caller holds exactly `some v`. -/
def flightInv {V : Type} (v : V) (s : FlightSys V) : Prop :=
  (s.core = ⟨none, false, none, 0⟩ ∧ s.pcA = .start ∧ s.pcB = .start) ∨
  (s.core = ⟨none, true, none, 1⟩ ∧
    ((s.pcA = .owner ∧ (s.pcB = .start ∨ s.pcB = .waiting)) ∨
     (s.pcB = .owner ∧ (s.pcA = .start ∨ s.pcA = .waiting)))) ∨
  (s.core = ⟨some v, false, some (some v), 1⟩ ∧
    (s.pcA = .start ∨ s.pcA = .waiting ∨ s.pcA = .done (some v)) ∧
    (s.pcB = .start ∨ s.pcB = .waiting ∨ s.pcB = .done (some v)))

/-- Translated from `client/components/ChordDiagram.jsx`: the keys of the
`CHORD_DATA` fingering table, in source order. -/
def chordDataKeys : List String :=
  ["C", "D", "E", "F", "G", "A", "B",
   "Cm", "Dm", "Em", "Fm", "Gm", "Am", "Bm",
   "C7", "D7", "E7", "F7", "G7", "A7", "B7",
   "Cm7", "Dm7", "Em7", "Fm7", "Gm7", "Am7", "Bm7",
   "Cmaj7", "Dmaj7", "Emaj7", "Fmaj7", "Gmaj7", "Amaj7", "Bmaj7",
   "Csus4", "Dsus4", "Esus4", "Gsus4", "Asus4",
   "Csus2", "Dsus2", "Esus2", "Gsus2", "Asus2",
   "Cadd9", "Dadd9", "Eadd9", "Gadd9",
   "Cdim", "Ddim", "Edim", "Fdim", "Gdim", "Adim", "Bdim",
   "Caug", "Daug", "Eaug", "Faug", "Gaug", "Aaug", "Baug",
   "C5", "D5", "E5", "F5", "G5", "A5", "B5"]

/-- The property names a JS object literal inherits from
`Object.prototype`, as character lists.  A property read such as
`CHORD_DATA[name]` walks the prototype chain, so it yields a truthy value
for each of these names even though none is an own key of the table. -/
def protoChars : List (List Char) :=
  ["constructor".data, "hasOwnProperty".data, "isPrototypeOf".data,
   "propertyIsEnumerable".data, "toLocaleString".data, "toString".data,
   "valueOf".data, "__defineGetter__".data, "__defineSetter__".data,
   "__lookupGetter__".data, "__lookupSetter__".data, "__proto__".data]

/-- Membership of a character list in a list of character lists. -/
def memChars (cs : List Char) : List (List Char) → Bool
  | [] => false
  | k :: rest => if cs = k then true else memChars cs rest

/-- Translated from `client/components/ChordDiagram.jsx`: the JS
truthiness test `CHORD_DATA[name]` — a property lookup on an object
literal, truthy for the table's own keys and also for every property name
inherited from `Object.prototype` (e.g. `"toString"`). -/
def hasChordData (name : String) : Bool :=
  chordDataKeys.contains name || memChars name.data protoChars

/-- Translated from `client/components/ChordDiagram.jsx`: the
`CHORD_ALIASES` table. -/
def chordAliases : List (String × String) :=
  [("Cmin", "Cm"), ("Dmin", "Dm"), ("Emin", "Em"), ("Fmin", "Fm"),
   ("Gmin", "Gm"), ("Amin", "Am"), ("Bmin", "Bm"),
   ("Cmaj", "C"), ("Dmaj", "D"), ("Emaj", "E"), ("Fmaj", "F"),
   ("Gmaj", "G"), ("Amaj", "A"), ("Bmaj", "B"),
   ("C#", "Db"), ("D#", "Eb"), ("F#", "Gb"), ("G#", "Ab"), ("A#", "Bb")]

/-- Translated from `client/components/ChordDiagram.jsx`: the
`SHARP_TO_FLAT` table. -/
def sharpToFlat : List (String × String) :=
  [("C#", "Db"), ("D#", "Eb"), ("F#", "Gb"), ("G#", "Ab"), ("A#", "Bb"),
   ("C#m", "Dbm"), ("D#m", "Ebm"), ("F#m", "Gbm"), ("G#m", "Abm"), ("A#m", "Bbm")]

/-- Association-list lookup, first match wins (JS object property read). -/
def lookupStr (k : String) : List (String × String) → Option String
  | [] => none
  | (a, b) :: rest => if k = a then some b else lookupStr k rest

/-- Does `haystack` start with `needle`? -/
def beginsWith : List Char → List Char → Bool
  | [], _ => true
  | _ :: _, [] => false
  | a :: as, b :: bs => a == b && beginsWith as bs

/-- JS `String.prototype.includes`: does the text contain the needle as a
contiguous substring? -/
def hasSub (needle : List Char) : List Char → Bool
  | [] => beginsWith needle []
  | c :: rest => beginsWith needle (c :: rest) || hasSub needle rest

/-- The regex character class `[A-G]`. -/
def isNoteLetter (c : Char) : Bool := 'A' ≤ c && c ≤ 'G'

/-- Translated from `client/components/ChordDiagram.jsx`: the
`chord.match(/^([A-G][b#]?)/)` base-triad extraction. -/
def baseRoot (chord : String) : Option String :=
  match chord.data with
  | [] => none
  | c1 :: rest =>
    if isNoteLetter c1 then
      match rest with
      | c2 :: _ => if c2 == 'b' || c2 == '#' then some ⟨[c1, c2]⟩ else some ⟨[c1]⟩
      | [] => some ⟨[c1]⟩
    else none

/-- Resolution step 1: exact match in the fingering table. -/
def tryExact (chord : String) : Option String :=
  if hasChordData chord then some chord else none

/-- Resolution step 2: the alias table, accepted only when the alias
target has fingering data. -/
def tryAlias (chord : String) : Option String :=
  match lookupStr chord chordAliases with
  | some al => if hasChordData al then some al else none
  | none => none

/-- Resolution step 3: the sharp-to-flat enharmonic swap, accepted only
when the swapped name has fingering data. -/
def tryFlat (chord : String) : Option String :=
  match lookupStr chord sharpToFlat with
  | some fl => if hasChordData fl then some fl else none
  | none => none

/-- Resolution step 4: strip to the base triad, preferring the minor
triad when the label contains `"m"` but not `"maj"`. -/
def tryBase (chord : String) : Option String :=
  match baseRoot chord with
  | none => none
  | some base =>
    if hasSub ['m'] chord.data && !hasSub ['m', 'a', 'j'] chord.data then
      if hasChordData (base ++ "m") then some (base ++ "m")
      else if hasChordData base then some base else none
    else if hasChordData base then some base else none

/-- Translated from `client/components/ChordDiagram.jsx`
(`normalizeChordName`): empty and sentinel labels resolve to nothing;
otherwise try an exact match, then the alias table, then the
sharp-to-flat swap, then the base-triad strip; `none` when all fail. -/
def normalizeChordName (chord : String) : Option String :=
  if chord = "" ∨ chord = "N" then none
  else
    match tryExact chord with
    | some r => some r
    | none =>
      match tryAlias chord with
      | some r => some r
      | none =>
        match tryFlat chord with
        | some r => some r
        | none => tryBase chord

/-- The first success of an ordered list of resolution steps. -/
def firstSuccess (steps : List (String → Option String)) (chord : String) :
    Option String :=
  match steps with
  | [] => none
  | st :: rest =>
    match st chord with
    | some r => some r
    | none => firstSuccess rest chord

/-- The documented resolution chain as an explicit ordered policy: exact
match, alias table, enharmonic swap, base-triad strip, terminal `none`. -/
def resolveSteps : List (String → Option String) :=
  [tryExact, tryAlias, tryFlat, tryBase]

/-- The ordered resolution policy of the spec's design note. -/
def resolvePolicy (chord : String) : Option String :=
  firstSuccess resolveSteps chord

/-- Translated from `client/pages/index.jsx` (timeline and chord-sheet
beat markers): a beat is classified as a downbeat when it lies within
50 ms of some entry of `downbeats`. -/
def isDownbeatB (downbeats : List ℤ) (beat : ℤ) : Bool :=
  downbeats.any fun db => |db - beat| < 50

/-- Translated from `client/pages/index.jsx`: beats classified as
downbeats are skipped by the ordinary beat-tick rendering. -/
def beatTicks (downbeats beats : List ℤ) : List ℤ :=
  beats.filter fun b => !isDownbeatB downbeats b

/-- Translated from `client/pages/index.jsx`: every entry of `downbeats`
is rendered as a bar marker. -/
def barMarkers (downbeats : List ℤ) : List ℤ := downbeats

/-- Translated from `client/pages/index.jsx` (chord-sheet rows): the
entries of a timestamp array that fall inside one row's `[lo, hi)` time
window (rows are 10 s wide). -/
def rowFilter (lo hi : ℤ) (xs : List ℤ) : List ℤ :=
  xs.filter fun x => lo ≤ x && x < hi

/-- Translated from `client/pages/index.jsx` (chord-sheet row beat
markers): each beat of the row is classified against the row-filtered
downbeats only — not the whole `downbeats` array — and classified beats
are skipped by the row's tick rendering. -/
def rowBeatTicks (downbeats beats : List ℤ) (lo hi : ℤ) : List ℤ :=
  (rowFilter lo hi beats).filter fun b => !isDownbeatB (rowFilter lo hi downbeats) b

/-- Claim C9: SegmentMerger never fails — for every duration, the empty
frame list yields exactly one segment labeled `"N"` spanning
`[0, duration)`. -/
theorem merger_empty_frames (d : ℤ) :
    segmentMerger [] d = [⟨0, d, "N"⟩] := by
  have h : absorbStep [⟨0, d, "N"⟩] = none := by
    simp only [absorbStep, absorbFirstShort]
    split <;> rfl
  simp only [segmentMerger, framesToSegments, absorbShort, List.length_cons,
    List.length_nil, segLoop, h]

/-- Claim C8, amended: at the timeline site a beat is classified as a
downbeat exactly when it lies within 50 ms of some entry of the
`downbeats` array, such beats are suppressed from the ordinary beat-tick
rendering, and every `downbeats` entry is rendered as a bar marker; at
the chord-sheet row site the same 50 ms rule is applied against only the
downbeats filtered to the row's `[lo, hi)` window, so suppression there
ignores downbeats of adjacent rows. -/
theorem downbeat_classification (downbeats beats : List ℤ) (b lo hi : ℤ) :
    (isDownbeatB downbeats b = true ↔ ∃ d ∈ downbeats, |d - b| < 50) ∧
    (b ∈ beatTicks downbeats beats ↔ b ∈ beats ∧ isDownbeatB downbeats b = false) ∧
    barMarkers downbeats = downbeats ∧
    (b ∈ rowBeatTicks downbeats beats lo hi ↔
      (b ∈ beats ∧ lo ≤ b ∧ b < hi) ∧
        isDownbeatB (rowFilter lo hi downbeats) b = false) := by
  refine ⟨?_, ?_, rfl, ?_⟩
  · simp [isDownbeatB]
  · simp [beatTicks]
  · simp only [rowBeatTicks, rowFilter, List.mem_filter, Bool.and_eq_true,
      Bool.not_eq_true', decide_eq_true_eq, and_assoc]

/-- Claim C8, counterexample: a beat 20 ms away from a downbeat — hence
classified as a downbeat by the claim's rule — that sits in the previous
10-second chord-sheet row (beat 9.99 s, downbeat 10.01 s, rows cut at
10 s) is still rendered as an ordinary beat tick by the row renderer,
because the row's filtered downbeat list is empty. -/
theorem row_beat_tick_counterexample :
    isDownbeatB [10010] 9990 = true ∧
    (9990 : ℤ) ∈ rowBeatTicks [10010] [9990] 0 10000 := by
  decide

/-- Claim C4: the chord bound to a timestamp `t` is the label of the
segment whose half-open interval contains `t`; failing that, of the first
segment whose start exceeds `t`; failing that, the sentinel `"N"`.  The
client's `getCurrentChord` agrees on the containment case, and the two
spec scenarios hold: `t = 3.0 s` yields `"G"`, `t = 10.0 s` yields
`"N"`. -/
theorem lyric_alignment_rule :
    (∀ segs t s, segs.find? (fun s2 => segContains s2 t) = some s →
        alignChord segs t = s.label) ∧
    (∀ segs t s, segs.find? (fun s2 => segContains s2 t) = none →
        segs.find? (fun s2 => t < s2.start) = some s →
        alignChord segs t = s.label) ∧
    (∀ segs t, segs.find? (fun s2 => segContains s2 t) = none →
        segs.find? (fun s2 => t < s2.start) = none →
        alignChord segs t = "N") ∧
    (∀ segs t s, getCurrentChord segs t = some s → alignChord segs t = s.label) ∧
    alignChord [⟨0, 2000, "C"⟩, ⟨2000, 5000, "G"⟩] 3000 = "G" ∧
    alignChord [⟨0, 2000, "C"⟩, ⟨2000, 5000, "G"⟩] 10000 = "N" := by
  refine ⟨?_, ?_, ?_, ?_, by decide, by decide⟩
  · intro segs t s h; simp [alignChord, h]
  · intro segs t s h1 h2; simp [alignChord, h1, h2]
  · intro segs t h1 h2; simp [alignChord, h1, h2]
  · intro segs t s h
    have h2 : segs.find? (fun s2 => segContains s2 t) = some s := by
      simpa [getCurrentChord, segContains] using h
    simp [alignChord, h2]

theorem lyric_alignment_rule_witness :
    alignChord [⟨0, 2000, "C"⟩, ⟨2000, 5000, "G"⟩] 3000 = "G" :=
  lyric_alignment_rule.1 [⟨0, 2000, "C"⟩, ⟨2000, 5000, "G"⟩] 3000
    ⟨2000, 5000, "G"⟩ (by decide)

theorem tryExact_data {c r : String} (h : tryExact c = some r) : hasChordData r = true := by
  unfold tryExact at h
  split at h
  · cases h; assumption
  · cases h

theorem tryAlias_data {c r : String} (h : tryAlias c = some r) : hasChordData r = true := by
  unfold tryAlias at h
  split at h
  · split at h
    · cases h; assumption
    · cases h
  · cases h

theorem tryFlat_data {c r : String} (h : tryFlat c = some r) : hasChordData r = true := by
  unfold tryFlat at h
  split at h
  · split at h
    · cases h; assumption
    · cases h
  · cases h

theorem tryBase_data {c r : String} (h : tryBase c = some r) : hasChordData r = true := by
  unfold tryBase at h
  split at h
  · cases h
  · split at h
    · split at h
      · cases h; assumption
      · split at h
        · cases h; assumption
        · cases h
    · split at h
      · cases h; assumption
      · cases h

/-- Claim C7, amended: `normalizeChordName` follows exactly the ordered
fallback chain whose first step is the JS truthy lookup `CHORD_DATA[chord]`
— which accepts the table's own keys and also every `Object.prototype`
property name — then the alias table, then the sharp-to-flat swap, then
the base-triad strip, and returns the terminal unresolved result `none`
when every one of those four steps fails. -/
theorem normalize_resolution_policy :
    (∀ chord, normalizeChordName chord = resolvePolicy chord) ∧
    (∀ chord, tryExact chord = none → tryAlias chord = none → tryFlat chord = none →
      tryBase chord = none → normalizeChordName chord = none) := by
  constructor
  · intro chord
    by_cases h1 : chord = ""
    · subst h1; decide
    by_cases h2 : chord = "N"
    · subst h2; decide
    simp only [normalizeChordName, resolvePolicy, resolveSteps, firstSuccess,
      if_neg (show ¬(chord = "" ∨ chord = "N") by simp [h1, h2])]
    cases tryExact chord
    · cases tryAlias chord
      · cases tryFlat chord
        · cases tryBase chord <;> rfl
        · rfl
      · rfl
    · rfl
  · intro chord hE hA hF hB
    by_cases hg : chord = "" ∨ chord = "N"
    · simp [normalizeChordName, hg]
    · simp [normalizeChordName, hg, hE, hA, hF, hB]

theorem normalize_resolution_policy_witness : normalizeChordName "Hq" = none :=
  normalize_resolution_policy.2 "Hq" (by decide) (by decide) (by decide) (by decide)

/-- Claim C7, counterexample: for the input `"toString"` every documented
step fails — it is not a key of the fingering table, has no alias, no
enharmonic swap and no `[A-G]` base root — yet `normalizeChordName`
returns `some "toString"` rather than the terminal `none`, because the JS
property read `CHORD_DATA["toString"]` finds the truthy inherited
`Object.prototype.toString`. -/
theorem normalize_policy_counterexample :
    normalizeChordName "toString" = some "toString" ∧
    chordDataKeys.contains "toString" = false ∧
    lookupStr "toString" chordAliases = none ∧
    lookupStr "toString" sharpToFlat = none ∧
    tryBase "toString" = none := by
  decide

theorem memChars_mem :
    ∀ (l : List (List Char)) (cs : List Char), memChars cs l = true → cs ∈ l := by
  intro l
  induction l with
  | nil => intro cs h; cases h
  | cons k rest ih =>
    intro cs h
    unfold memChars at h
    split at h
    · exact (by assumption : cs = k) ▸ List.mem_cons_self _ _
    · exact List.mem_cons_of_mem _ (ih cs h)

theorem protoChars_long {cs : List Char} (h : cs ∈ protoChars) : 7 ≤ cs.length := by
  simp only [protoChars, List.mem_cons, List.not_mem_nil, or_false] at h
  rcases h with rfl | rfl | rfl | rfl | rfl | rfl | rfl | rfl | rfl | rfl | rfl | rfl <;>
    decide

theorem lookupStr_mem_snd :
    ∀ (l : List (String × String)) (c al : String),
      lookupStr c l = some al → ∃ p ∈ l, p.2 = al := by
  intro l
  induction l with
  | nil => intro c al h; cases h
  | cons p rest ih =>
    intro c al h
    unfold lookupStr at h
    split at h
    · cases h
      exact ⟨_, List.mem_cons_self _ _, rfl⟩
    · rcases ih c al h with ⟨q, hq, he⟩
      exact ⟨q, List.mem_cons_of_mem _ hq, he⟩

theorem hasChordData_own {r : String} (hcd : hasChordData r = true)
    (hnp : memChars r.data protoChars = false) :
    chordDataKeys.contains r = true := by
  unfold hasChordData at hcd
  rw [hnp, Bool.or_false] at hcd
  exact hcd

theorem tryExact_self {c r : String} (h : tryExact c = some r) :
    r = c ∧ hasChordData c = true := by
  unfold tryExact at h
  split at h
  · cases h; exact ⟨rfl, by assumption⟩
  · cases h

theorem tryAlias_own {c r : String} (h : tryAlias c = some r) :
    chordDataKeys.contains r = true := by
  unfold tryAlias at h
  split at h
  · split at h
    · cases h
      rcases lookupStr_mem_snd _ _ _ (by assumption) with ⟨p, hp, he⟩
      refine hasChordData_own (by assumption) ?_
      rw [← he]
      exact (by decide : ∀ p ∈ chordAliases, memChars p.2.data protoChars = false) p hp
    · cases h
  · cases h

theorem tryFlat_own {c r : String} (h : tryFlat c = some r) :
    chordDataKeys.contains r = true := by
  unfold tryFlat at h
  split at h
  · split at h
    · cases h
      rcases lookupStr_mem_snd _ _ _ (by assumption) with ⟨p, hp, he⟩
      refine hasChordData_own (by assumption) ?_
      rw [← he]
      exact (by decide : ∀ p ∈ sharpToFlat, memChars p.2.data protoChars = false) p hp
    · cases h
  · cases h

theorem baseRoot_len {c base : String} (h : baseRoot c = some base) :
    base.data.length ≤ 2 := by
  unfold baseRoot at h
  split at h
  · cases h
  · split at h
    · split at h
      · split at h
        · cases h; simp
        · cases h; simp
      · cases h; simp
    · cases h

theorem short_not_proto {s : String} (hlen : s.data.length ≤ 3) :
    memChars s.data protoChars = false := by
  cases hmc : memChars s.data protoChars with
  | false => rfl
  | true =>
    have := protoChars_long (memChars_mem _ _ hmc)
    omega

theorem tryBase_own {c r : String} (h : tryBase c = some r) :
    chordDataKeys.contains r = true := by
  unfold tryBase at h
  split at h
  · cases h
  · rename_i base hb
    have hblen := baseRoot_len hb
    have hmlen : (base ++ "m").data.length ≤ 3 := by
      rw [show (base ++ "m").data = base.data ++ ['m'] from rfl]
      simp only [List.length_append, List.length_cons, List.length_nil]
      omega
    split at h
    · split at h
      · cases h
        exact hasChordData_own (by assumption) (short_not_proto hmlen)
      · split at h
        · cases h
          exact hasChordData_own (by assumption) (short_not_proto (by omega))
        · cases h
    · split at h
      · cases h
        exact hasChordData_own (by assumption) (short_not_proto (by omega))
      · cases h

/-- Claim C10, amended: `normalizeChordName` returns either `none` or a
name for which the JS lookup `CHORD_DATA[name]` is truthy; every resolved
name is an own key of the fingering table unless the input itself is an
`Object.prototype` property name, which resolves to itself without
fingering data; in particular `"N"` and the empty string resolve to
`none`. -/
theorem normalize_resolved_has_fingering :
    (∀ chord r, normalizeChordName chord = some r → hasChordData r = true) ∧
    (∀ chord r, normalizeChordName chord = some r →
      chordDataKeys.contains r = true ∨
        (r = chord ∧ memChars chord.data protoChars = true)) ∧
    normalizeChordName "N" = none ∧
    normalizeChordName "" = none := by
  refine ⟨?_, ?_, by decide, by decide⟩
  · intro chord r h
    unfold normalizeChordName at h
    split at h
    · cases h
    · split at h
      · cases h; exact tryExact_data (by assumption)
      · split at h
        · cases h; exact tryAlias_data (by assumption)
        · split at h
          · cases h; exact tryFlat_data (by assumption)
          · exact tryBase_data h
  · intro chord r h
    unfold normalizeChordName at h
    split at h
    · cases h
    · split at h
      · cases h
        rcases tryExact_self (by assumption) with ⟨rfl, hcd⟩
        unfold hasChordData at hcd
        rcases Bool.or_eq_true_iff.mp hcd with hown | hproto
        · exact Or.inl hown
        · exact Or.inr ⟨rfl, hproto⟩
      · split at h
        · cases h; exact Or.inl (tryAlias_own (by assumption))
        · split at h
          · cases h; exact Or.inl (tryFlat_own (by assumption))
          · exact Or.inl (tryBase_own h)

/-- Claim C10, counterexample: `normalizeChordName "toString"` returns
`some "toString"`, which is not a key of the `CHORD_DATA` fingering
table — the JS property read finds the inherited
`Object.prototype.toString`, so the resolved name has no fingering
data. -/
theorem normalize_key_counterexample :
    normalizeChordName "toString" = some "toString" ∧
    chordDataKeys.contains "toString" = false ∧
    memChars "toString".data protoChars = true := by
  decide

theorem normalize_resolved_has_fingering_witness : hasChordData "Cmaj7" = true :=
  normalize_resolved_has_fingering.1 "Cmaj7" "Cmaj7" (by decide)

theorem idxOf_sound {cs : List Char} :
    ∀ {l : List (List Char)} {i : ℕ}, idxOf cs l = some i →
      i < l.length ∧ l.getD i [] = cs := by
  intro l
  induction l with
  | nil => intro i h; cases h
  | cons e rest ih =>
    intro i h
    unfold idxOf at h
    split at h
    · cases h
      refine ⟨Nat.succ_pos _, ?_⟩
      simp only [List.getD_cons_zero]
      exact (by assumption : cs = e).symm
    · rcases Option.map_eq_some'.mp h with ⟨j, hj, rfl⟩
      rcases ih hj with ⟨hlt, hg⟩
      refine ⟨Nat.succ_lt_succ hlt, ?_⟩
      simpa only [List.getD_cons_succ] using hg

theorem splitRoot_sound {cs : List Char} {i : ℕ} {suf : List Char}
    (h : splitRoot cs = some (i, suf)) :
    i < 12 ∧ noteNames.getD i [] ++ suf = cs := by
  rcases cs with _ | ⟨c1, cs2⟩
  · cases h
  rcases cs2 with _ | ⟨c2, rest⟩
  · simp only [splitRoot] at h
    rcases Option.map_eq_some'.mp h with ⟨j, hj, hpair⟩
    cases hpair
    rcases idxOf_sound hj with ⟨hlt, hg⟩
    refine ⟨hlt, ?_⟩
    rw [hg]
    rfl
  · simp only [splitRoot] at h
    split at h
    · cases h
      rcases idxOf_sound (by assumption : idxOf [c1, c2] noteNames = some i) with ⟨hlt, hg⟩
      refine ⟨hlt, ?_⟩
      rw [hg]
      rfl
    · rcases Option.map_eq_some'.mp h with ⟨j, hj, hpair⟩
      cases hpair
      rcases idxOf_sound hj with ⟨hlt, hg⟩
      refine ⟨hlt, ?_⟩
      rw [hg]
      rfl

theorem noteIdx_two_none (c1 c2 : Char) (h : c2 ≠ '#') : noteIdx [c1, c2] = none := by
  simp [noteIdx, noteNames, idxOf, h]

theorem splitRoot_roundtrip (i : ℕ) (hi : i < 12) (suf : List Char)
    (hsuf : ∀ t, suf ≠ '#' :: t) :
    splitRoot (noteNames.getD i [] ++ suf) = some (i, suf) := by
  rcases suf with _ | ⟨c2, rest⟩
  · interval_cases i <;> rfl
  · have hc2 : c2 ≠ '#' := by
      intro he; exact hsuf rest (by rw [he])
    interval_cases i <;>
      simp only [noteNames, List.getD] <;>
      first
        | rfl
        | (show splitRoot (_ :: c2 :: rest) = _
           simp only [splitRoot, noteIdx_two_none _ c2 hc2]
           rfl)

theorem root_append_ne_N (i : ℕ) (hi : i < 12) (suf : List Char) :
    noteNames.getD i [] ++ suf ≠ ['N'] := by
  interval_cases i <;> simp [noteNames]

theorem transposeChars_split {cs : List Char} {i : ℕ} {suf : List Char} (n : ℤ)
    (h : splitRoot cs = some (i, suf)) :
    transposeChars n cs = noteNames.getD (((i : ℤ) + n) % 12).toNat [] ++ suf := by
  have hne : cs ≠ ['N'] := by
    intro he
    rw [he, show splitRoot ['N'] = none from rfl] at h
    cases h
  simp only [transposeChars, if_neg hne, h]

theorem emod12_toNat_lt (x : ℤ) : (x % 12).toNat < 12 := by omega

theorem transposeChars_comp (a b : ℤ) (cs : List Char)
    (hok : ∀ i suf, splitRoot cs = some (i, suf) → ∀ t, suf ≠ '#' :: t) :
    transposeChars b (transposeChars a cs) = transposeChars (a + b) cs := by
  by_cases hN : cs = ['N']
  · rw [hN]
    rfl
  rcases hs : splitRoot cs with _ | ⟨i, suf⟩
  · simp only [transposeChars, if_neg hN, hs]
  · have hsuf := hok i suf hs
    have h1 := transposeChars_split a hs
    have h2 := splitRoot_roundtrip ((((i : ℤ) + a) % 12).toNat) (emod12_toNat_lt _) suf hsuf
    rw [h1]
    have hne2 := root_append_ne_N ((((i : ℤ) + a) % 12).toNat) (emod12_toNat_lt _) suf
    rw [transposeChars_split b h2, transposeChars_split (a + b) hs]
    have hidx : ((((((i : ℤ) + a) % 12).toNat : ℤ) + b) % 12).toNat
        = (((i : ℤ) + (a + b)) % 12).toNat := by omega
    rw [hidx]

theorem transposeChars_zero (cs : List Char) : transposeChars 0 cs = cs := by
  by_cases hN : cs = ['N']
  · rw [hN]
    rfl
  rcases hs : splitRoot cs with _ | ⟨i, suf⟩
  · simp only [transposeChars, if_neg hN, hs]
  · rcases splitRoot_sound hs with ⟨hlt, hcat⟩
    rw [transposeChars_split 0 hs]
    have hidx : (((i : ℤ) + 0) % 12).toNat = i := by omega
    rw [hidx, hcat]

theorem transposeChars_twelve (cs : List Char) : transposeChars 12 cs = cs := by
  by_cases hN : cs = ['N']
  · rw [hN]
    rfl
  rcases hs : splitRoot cs with _ | ⟨i, suf⟩
  · simp only [transposeChars, if_neg hN, hs]
  · rcases splitRoot_sound hs with ⟨hlt, hcat⟩
    rw [transposeChars_split 12 hs]
    have hidx : (((i : ℤ) + 12) % 12).toNat = i := by omega
    rw [hidx, hcat]

theorem labelOk_suffix {lab : String} (h : labelOk lab = true) :
    ∀ i suf, splitRoot lab.data = some (i, suf) → ∀ t, suf ≠ '#' :: t := by
  intro i suf hs t he
  unfold labelOk at h
  rw [hs] at h
  subst he
  simp at h

theorem transposeLabel_comp (a b : ℤ) (lab : String) (h : labelOk lab = true) :
    transposeLabel b (transposeLabel a lab) = transposeLabel (a + b) lab := by
  unfold transposeLabel
  exact congrArg String.mk (transposeChars_comp a b lab.data (labelOk_suffix h))

theorem transposeLabel_zero (lab : String) : transposeLabel 0 lab = lab := by
  unfold transposeLabel
  rw [transposeChars_zero]

theorem transposeLabel_twelve (lab : String) : transposeLabel 12 lab = lab := by
  unfold transposeLabel
  rw [transposeChars_twelve]

theorem transposeSegments_comp (a b : ℤ) (S : List ChordSegment)
    (hok : ∀ s ∈ S, labelOk s.label = true) :
    transposeSegments b (transposeSegments a S) = transposeSegments (a + b) S := by
  unfold transposeSegments
  rw [List.map_map]
  refine List.map_congr_left ?_
  intro s hs
  show { s with label := transposeLabel b (transposeLabel a s.label) }
      = { s with label := transposeLabel (a + b) s.label }
  rw [transposeLabel_comp a b s.label (hok s hs)]

theorem transposeSegments_zero (S : List ChordSegment) : transposeSegments 0 S = S := by
  unfold transposeSegments
  have : ∀ s ∈ S, { s with label := transposeLabel 0 s.label } = s := by
    intro s _
    rw [transposeLabel_zero]
  rw [List.map_congr_left this]
  exact List.map_id S

theorem transposeSegments_twelve (S : List ChordSegment) : transposeSegments 12 S = S := by
  unfold transposeSegments
  have : ∀ s ∈ S, { s with label := transposeLabel 12 s.label } = s := by
    intro s _
    rw [transposeLabel_twelve]
  rw [List.map_congr_left this]
  exact List.map_id S

/-- Claim C2: transpose is a group action on chord segment lists whose
labels are well-formed sharp-spelled chord names: applying `a` then `b`
equals applying `a + b`, applying `12` or `0` is the identity, and
applying `n` then `-n` is the identity. -/
theorem transpose_group_action (S : List ChordSegment) (a b n : ℤ)
    (hok : ∀ s ∈ S, labelOk s.label = true) :
    transposeSegments b (transposeSegments a S) = transposeSegments (a + b) S ∧
    transposeSegments 12 S = S ∧
    transposeSegments 0 S = S ∧
    transposeSegments (-n) (transposeSegments n S) = S := by
  refine ⟨transposeSegments_comp a b S hok, transposeSegments_twelve S,
    transposeSegments_zero S, ?_⟩
  rw [transposeSegments_comp n (-n) S hok]
  simpa using transposeSegments_zero S

theorem transpose_group_action_witness :
    transposeSegments 2 (transposeSegments 1 [⟨0, 1000, "C"⟩, ⟨1000, 2000, "C#m"⟩])
      = transposeSegments (1 + 2) [⟨0, 1000, "C"⟩, ⟨1000, 2000, "C#m"⟩] ∧
    transposeSegments 12 [⟨0, 1000, "C"⟩, ⟨1000, 2000, "C#m"⟩]
      = [⟨0, 1000, "C"⟩, ⟨1000, 2000, "C#m"⟩] ∧
    transposeSegments 0 [⟨0, 1000, "C"⟩, ⟨1000, 2000, "C#m"⟩]
      = [⟨0, 1000, "C"⟩, ⟨1000, 2000, "C#m"⟩] ∧
    transposeSegments (-5) (transposeSegments 5 [⟨0, 1000, "C"⟩, ⟨1000, 2000, "C#m"⟩])
      = [⟨0, 1000, "C"⟩, ⟨1000, 2000, "C#m"⟩] :=
  transpose_group_action [⟨0, 1000, "C"⟩, ⟨1000, 2000, "C#m"⟩] 1 2 5 (by decide)

theorem simplifyChars_split {cs : List Char} {i : ℕ} {suf : List Char}
    (h : splitRoot cs = some (i, suf)) :
    simplifyChars cs =
      (if hasBareM suf then noteNames.getD i [] ++ ['m'] else noteNames.getD i []) := by
  have hne : cs ≠ ['N'] := by
    intro he
    rw [he, show splitRoot ['N'] = none from rfl] at h
    cases h
  simp only [simplifyChars, if_neg hne, h]

/-- Claim C6: in simple mode every chord label that splits into root and
suffix is reduced to the root plus at most one of the suffixes `""` or
`"m"` — the suffix `"m"` exactly when the label contains an `"m"` not
followed by `"aj"`; full mode leaves labels unchanged; `"Cmaj7"`
simplifies to `"C"` and `"Dm7"` to `"Dm"`. -/
theorem simple_mode_reduction :
    (∀ lab i suf, splitRoot lab.data = some (i, suf) → hasBareM suf = true →
        applyMode ChordMode.simple lab = noteStr i ++ "m") ∧
    (∀ lab i suf, splitRoot lab.data = some (i, suf) → hasBareM suf = false →
        applyMode ChordMode.simple lab = noteStr i) ∧
    (∀ lab, applyMode ChordMode.full lab = lab) ∧
    applyMode ChordMode.simple "Cmaj7" = "C" ∧
    applyMode ChordMode.full "Dm7" = "Dm7" ∧
    applyMode ChordMode.simple "Dm7" = "Dm" := by
  refine ⟨?_, ?_, fun lab => rfl, by decide, by decide, by decide⟩
  · intro lab i suf h hm
    show simplifyLabel lab = noteStr i ++ "m"
    unfold simplifyLabel
    rw [simplifyChars_split h, if_pos hm]
    rfl
  · intro lab i suf h hm
    show simplifyLabel lab = noteStr i
    unfold simplifyLabel
    rw [simplifyChars_split h, if_neg (by simp [hm])]
    rfl

theorem simple_mode_reduction_witness :
    applyMode ChordMode.simple "Gsus4" = noteStr 7 ∧
    applyMode ChordMode.simple "F#m7" = noteStr 6 ++ "m" :=
  ⟨simple_mode_reduction.2.1 "Gsus4" 7 ['s', 'u', 's', '4'] (by decide) (by decide),
   simple_mode_reduction.1 "F#m7" 6 ['m', '7'] (by decide) (by decide)⟩

theorem flightInv_init {V : Type} (v : V) : flightInv v (sysInit V) :=
  Or.inl ⟨rfl, rfl, rfl⟩

theorem flightInv_step {V : Type} (v : V) (c : Bool) (s : FlightSys V)
    (h : flightInv v s) : flightInv v (sysStep (some v) c s) := by
  obtain ⟨core, pcA, pcB⟩ := s
  rcases h with ⟨hc, ha, hb⟩ | ⟨hc, ⟨ha, hb | hb⟩ | ⟨hb, ha | ha⟩⟩ |
    ⟨hc, ha | ha | ha, hb | hb | hb⟩ <;>
      subst hc <;> subst ha <;> subst hb <;> cases c <;>
      simp [sysStep, callerStep, flightInv]

theorem flightInv_exec {V : Type} (v : V) (sched : List Bool) (s : FlightSys V)
    (h : flightInv v s) : flightInv v (sysExec (some v) sched s) := by
  induction sched generalizing s with
  | nil => exact h
  | cons c cs ih => exact ih _ (flightInv_step v c s h)

set_option linter.unnecessarySeqFocus false in
/-- Claim C5: two callers that request the same track concurrently while
no cached entry exists trigger exactly one `computeFn` run and both
receive the identical successful result, which is cached; the owner's
completion step removes the in-flight registration for any outcome and
stores the result via `putRaw` on success. -/
theorem single_flight_dedup {V : Type} (v : V) (sched : List Bool) (ra rb : Option V)
    (hA : (sysExec (some v) sched (sysInit V)).pcA = FlightPC.done ra)
    (hB : (sysExec (some v) sched (sysInit V)).pcB = FlightPC.done rb) :
    ((sysExec (some v) sched (sysInit V)).core.runs = 1 ∧
      ra = some v ∧ rb = some v ∧
      (sysExec (some v) sched (sysInit V)).core.cached = some v ∧
      (sysExec (some v) sched (sysInit V)).core.flight = false) ∧
    (∀ (outcome : Option V) (sh : CacheCore V),
      (callerStep outcome FlightPC.owner sh).2.flight = false) ∧
    (∀ sh : CacheCore V, (callerStep (some v) FlightPC.owner sh).2.cached = some v) := by
  refine ⟨?_, fun outcome sh => rfl, fun sh => rfl⟩
  have hinv := flightInv_exec v sched (sysInit V) (flightInv_init v)
  rcases hinv with ⟨hc, ha, hb⟩ | ⟨hc, ⟨ha, hb | hb⟩ | ⟨hb, ha | ha⟩⟩ |
    ⟨hc, ha | ha | ha, hb | hb | hb⟩ <;>
      (rw [ha] at hA; rw [hb] at hB) <;> cases hA <;> cases hB <;>
      (rw [hc]; exact ⟨rfl, rfl, rfl, rfl, rfl⟩)

theorem single_flight_dedup_witness :
    ((sysExec (some 7) [true, false, true, false] (sysInit ℕ)).core.runs = 1 ∧
      some 7 = some 7 ∧ some 7 = some 7 ∧
      (sysExec (some 7) [true, false, true, false] (sysInit ℕ)).core.cached = some 7 ∧
      (sysExec (some 7) [true, false, true, false] (sysInit ℕ)).core.flight = false) ∧
    (∀ (outcome : Option ℕ) (sh : CacheCore ℕ),
      (callerStep outcome FlightPC.owner sh).2.flight = false) ∧
    (∀ sh : CacheCore ℕ, (callerStep (some 7) FlightPC.owner sh).2.cached = some 7) :=
  single_flight_dedup 7 [true, false, true, false] (some 7) (some 7)
    (by decide) (by decide)

theorem coversB_cons {a b : ℤ} {s : ChordSegment} {rest : List ChordSegment} :
    coversB a b (s :: rest) = true ↔
      s.start = a ∧ a < s.stop ∧ coversB s.stop b rest = true := by
  simp [coversB, Bool.and_eq_true, and_assoc]

theorem mergeInto_covers :
    ∀ (l : List ChordSegment) (s : ChordSegment) (a b : ℤ),
      coversB a b (s :: l) = true → coversB a b (mergeInto s l) = true := by
  intro l
  induction l with
  | nil => intro s a b h; exact h
  | cons s2 rest ih =>
    intro s a b h
    rcases coversB_cons.mp h with ⟨h1, h2, h3⟩
    rcases coversB_cons.mp h3 with ⟨h4, h5, h6⟩
    unfold mergeInto
    split
    · exact ih _ a b (coversB_cons.mpr ⟨h1, lt_trans h2 (h4 ▸ h5), h6⟩)
    · exact coversB_cons.mpr ⟨h1, h2, ih s2 s.stop b (coversB_cons.mpr ⟨h4, h5, h6⟩)⟩

theorem mergeAdjacent_covers {a b : ℤ} {l : List ChordSegment}
    (h : coversB a b l = true) : coversB a b (mergeAdjacent l) = true := by
  cases l with
  | nil => exact h
  | cons s rest => exact mergeInto_covers rest s a b h

theorem absorbAux_covers :
    ∀ (l : List ChordSegment) (p : ChordSegment) (a b : ℤ) (r : List ChordSegment),
      coversB a b (p :: l) = true → absorbAux p l = some r →
      coversB a b r = true := by
  intro l
  induction l with
  | nil => intro p a b r _ hr; cases hr
  | cons s rest ih =>
    intro p a b r h hr
    rcases coversB_cons.mp h with ⟨h1, h2, h3⟩
    rcases coversB_cons.mp h3 with ⟨h4, h5, h6⟩
    unfold absorbAux at hr
    split at hr
    · cases hr
      exact coversB_cons.mpr ⟨h1, lt_trans h2 (h4 ▸ h5), h6⟩
    · rcases Option.map_eq_some'.mp hr with ⟨r2, hr2, rfl⟩
      exact coversB_cons.mpr ⟨h1, h2, ih s p.stop b r2 h3 hr2⟩

theorem absorbFirstShort_covers {a b : ℤ} {l r : List ChordSegment}
    (h : coversB a b l = true) (hr : absorbFirstShort l = some r) :
    coversB a b r = true := by
  cases l with
  | nil => cases hr
  | cons s rest =>
    rcases coversB_cons.mp h with ⟨h1, h2, h3⟩
    simp only [absorbFirstShort] at hr
    split at hr
    · cases rest with
      | nil => cases hr
      | cons s2 rest2 =>
        cases hr
        rcases coversB_cons.mp h3 with ⟨h4, h5, h6⟩
        exact coversB_cons.mpr ⟨h1, lt_trans h2 (h4 ▸ h5), h6⟩
    · exact absorbAux_covers rest s a b r h hr

theorem absorbStep_covers {a b : ℤ} {l r : List ChordSegment}
    (h : coversB a b l = true) (hr : absorbStep l = some r) :
    coversB a b r = true := by
  rcases Option.map_eq_some'.mp hr with ⟨r0, hr0, rfl⟩
  exact mergeAdjacent_covers (absorbFirstShort_covers h hr0)

theorem segLoop_covers {a b : ℤ} :
    ∀ (n : ℕ) (l : List ChordSegment), coversB a b l = true →
      coversB a b (segLoop n l) = true := by
  intro n
  induction n with
  | zero => intro l h; exact h
  | succ n ih =>
    intro l h
    unfold segLoop
    split
    · exact h
    · exact ih _ (absorbStep_covers h (by assumption))

theorem absorbShort_covers {a b : ℤ} {l : List ChordSegment}
    (h : coversB a b l = true) : coversB a b (absorbShort l) = true :=
  segLoop_covers l.length l h

theorem runs_covers :
    ∀ (rs : List (ℤ × String)) (t : ℤ) (l : String) (d : ℤ),
      List.Chain' (fun p q : ℤ × String => p.1 < q.1) ((t, l) :: rs) →
      (∀ p ∈ rs, p.1 < d) → t < d →
      coversB t d (runsToSegments ((t, l) :: rs) d) = true := by
  intro rs
  induction rs with
  | nil =>
    intro t l d _ _ htd
    simp [runsToSegments, coversB, htd]
  | cons p rest ih =>
    obtain ⟨t2, l2⟩ := p
    intro t l d hchain hmem htd
    rcases List.chain'_cons.mp hchain with ⟨h12, hchain2⟩
    have ht2d : t2 < d := hmem (t2, l2) (List.mem_cons_self _ _)
    refine coversB_cons.mpr ⟨rfl, h12, ?_⟩
    exact ih t2 l2 d hchain2 (fun q hq => hmem q (List.mem_cons_of_mem _ hq)) ht2d

theorem boundAux_ts_chain :
    ∀ (fs : List ChordFrame) (l : String) (t0 : ℤ),
      (∀ g ∈ fs, t0 < g.timestamp) →
      List.Pairwise (fun f g : ChordFrame => f.timestamp < g.timestamp) fs →
      List.Chain' (fun p q : ℤ × String => p.1 < q.1) ((t0, l) :: boundAux l fs) := by
  intro fs
  induction fs with
  | nil => intro l t0 _ _; simp [boundAux]
  | cons f fs ih =>
    intro l t0 hlt hpw
    rcases List.pairwise_cons.mp hpw with ⟨hf, hpw2⟩
    unfold boundAux
    split
    · exact ih l t0 (fun g hg => hlt g (List.mem_cons_of_mem _ hg)) hpw2
    · exact List.chain'_cons.mpr
        ⟨hlt f (List.mem_cons_self _ _), ih f.label f.timestamp hf hpw2⟩

theorem boundAux_mem :
    ∀ (fs : List ChordFrame) (l : String) (p : ℤ × String),
      p ∈ boundAux l fs → ∃ g ∈ fs, p.1 = g.timestamp := by
  intro fs
  induction fs with
  | nil => intro l p hp; cases hp
  | cons f fs ih =>
    intro l p hp
    unfold boundAux at hp
    split at hp
    · rcases ih l p hp with ⟨g, hg, he⟩
      exact ⟨g, List.mem_cons_of_mem _ hg, he⟩
    · rcases List.mem_cons.mp hp with rfl | hp2
      · exact ⟨f, List.mem_cons_self _ _, rfl⟩
      · rcases ih f.label p hp2 with ⟨g, hg, he⟩
        exact ⟨g, List.mem_cons_of_mem _ hg, he⟩

theorem framesToSegments_covers (frames : List ChordFrame) (d : ℤ) (hd : 0 < d)
    (hsort : List.Pairwise (fun f g : ChordFrame => f.timestamp < g.timestamp) frames)
    (hrange : ∀ f ∈ frames, 0 ≤ f.timestamp ∧ f.timestamp < d) :
    coversB 0 d (framesToSegments frames d) = true := by
  cases frames with
  | nil => simp [framesToSegments, coversB, hd]
  | cons f fs =>
    rcases List.pairwise_cons.mp hsort with ⟨hf, hpw⟩
    refine runs_covers _ 0 f.label d ?_ ?_ hd
    · refine boundAux_ts_chain fs f.label 0 ?_ hpw
      intro g hg
      exact lt_of_le_of_lt (hrange f (List.mem_cons_self _ _)).1 (hf g hg)
    · intro p hp
      rcases boundAux_mem fs f.label p hp with ⟨g, hg, he⟩
      rw [he]
      exact (hrange g (List.mem_cons_of_mem _ hg)).2

/-- Claim C1: for every ordered frame list whose timestamps lie in
`[0, duration)` with `0 < duration`, the SegmentMerger output is
time-sorted, contiguous — each segment's end equals the next segment's
start — and covers exactly `[0, duration)` with no gaps or overlaps
(all of which `coversB 0 duration` encodes). -/
theorem segment_merger_coverage (frames : List ChordFrame) (d : ℤ) (hd : 0 < d)
    (hsort : List.Pairwise (fun f g : ChordFrame => f.timestamp < g.timestamp) frames)
    (hrange : ∀ f ∈ frames, 0 ≤ f.timestamp ∧ f.timestamp < d) :
    coversB 0 d (segmentMerger frames d) = true :=
  absorbShort_covers (framesToSegments_covers frames d hd hsort hrange)

theorem segment_merger_coverage_witness :
    coversB 0 1000
      (segmentMerger [⟨0, "C"⟩, ⟨100, "C"⟩, ⟨200, "G"⟩, ⟨250, "C"⟩] 1000) = true :=
  segment_merger_coverage [⟨0, "C"⟩, ⟨100, "C"⟩, ⟨200, "G"⟩, ⟨250, "C"⟩] 1000
    (by decide) (by decide) (by decide)

theorem mergeInto_shape :
    ∀ (l : List ChordSegment) (s : ChordSegment),
      ∃ t r2, mergeInto s l = t :: r2 ∧ t.label = s.label ∧ noAdjEq (t :: r2) := by
  intro l
  induction l with
  | nil => intro s; exact ⟨s, [], rfl, rfl, List.chain'_singleton s⟩
  | cons s2 rest ih =>
    intro s
    unfold mergeInto
    split
    · rcases ih ⟨s.start, s2.stop, s.label⟩ with ⟨t, r2, he, hl, hadj⟩
      exact ⟨t, r2, he, hl, hadj⟩
    · rcases ih s2 with ⟨t, r2, he, hl, hadj⟩
      refine ⟨s, mergeInto s2 rest, rfl, rfl, ?_⟩
      rw [he]
      exact List.chain'_cons.mpr ⟨by rw [hl]; assumption, he ▸ hadj⟩

theorem mergeAdjacent_noadj (l : List ChordSegment) : noAdjEq (mergeAdjacent l) := by
  cases l with
  | nil => exact List.chain'_nil
  | cons s rest =>
    rcases mergeInto_shape rest s with ⟨t, r2, he, _, hadj⟩
    show noAdjEq (mergeInto s rest)
    rw [he]
    exact hadj

theorem mergeInto_id :
    ∀ (l : List ChordSegment) (s : ChordSegment), noAdjEq (s :: l) →
      mergeInto s l = s :: l := by
  intro l
  induction l with
  | nil => intro s _; rfl
  | cons s2 rest ih =>
    intro s h
    rcases List.chain'_cons.mp h with ⟨hne, h2⟩
    unfold mergeInto
    rw [if_neg hne, ih s2 h2]

theorem mergeAdjacent_id {l : List ChordSegment} (h : noAdjEq l) :
    mergeAdjacent l = l := by
  cases l with
  | nil => rfl
  | cons s rest => exact mergeInto_id rest s h

theorem mergeInto_length :
    ∀ (l : List ChordSegment) (s : ChordSegment),
      (mergeInto s l).length ≤ l.length + 1 := by
  intro l
  induction l with
  | nil => intro s; exact le_refl _
  | cons s2 rest ih =>
    intro s
    unfold mergeInto
    split
    · exact le_trans (ih _) (by simp)
    · simpa using Nat.succ_le_succ (ih s2)

theorem mergeAdjacent_length (l : List ChordSegment) :
    (mergeAdjacent l).length ≤ l.length := by
  cases l with
  | nil => exact le_refl _
  | cons s rest => exact mergeInto_length rest s

theorem absorbAux_length :
    ∀ (l : List ChordSegment) (p : ChordSegment) (r : List ChordSegment),
      absorbAux p l = some r → r.length = l.length := by
  intro l
  induction l with
  | nil => intro p r h; cases h
  | cons s rest ih =>
    intro p r h
    unfold absorbAux at h
    split at h
    · cases h; rfl
    · rcases Option.map_eq_some'.mp h with ⟨r2, hr2, rfl⟩
      simp [ih s r2 hr2]

theorem absorbFirstShort_length {l r : List ChordSegment}
    (h : absorbFirstShort l = some r) : r.length + 1 = l.length := by
  cases l with
  | nil => cases h
  | cons s rest =>
    simp only [absorbFirstShort] at h
    split at h
    · cases rest with
      | nil => cases h
      | cons s2 rest2 => cases h; rfl
    · rw [absorbAux_length rest s r h]
      rfl

theorem absorbStep_length {l r : List ChordSegment}
    (h : absorbStep l = some r) : r.length < l.length := by
  rcases Option.map_eq_some'.mp h with ⟨r0, hr0, rfl⟩
  calc (mergeAdjacent r0).length ≤ r0.length := mergeAdjacent_length r0
    _ < l.length := by
          have := absorbFirstShort_length hr0
          omega

theorem segLoop_fix :
    ∀ (n : ℕ) (l : List ChordSegment), l.length ≤ n →
      absorbStep (segLoop n l) = none := by
  intro n
  induction n with
  | zero =>
    intro l hl
    have : l = [] := List.length_eq_zero.mp (Nat.le_zero.mp hl)
    subst this
    rfl
  | succ n ih =>
    intro l hl
    unfold segLoop
    split
    · assumption
    · refine ih _ ?_
      have := absorbStep_length (by assumption : absorbStep l = some _)
      omega

theorem segLoop_of_none {l : List ChordSegment} (h : absorbStep l = none) :
    ∀ n, segLoop n l = l := by
  intro n
  cases n with
  | zero => rfl
  | succ n => simp [segLoop, h]

theorem segLoop_noadj :
    ∀ (n : ℕ) (l : List ChordSegment), noAdjEq l → noAdjEq (segLoop n l) := by
  intro n
  induction n with
  | zero => intro l h; exact h
  | succ n ih =>
    intro l h
    unfold segLoop
    split
    · exact h
    · rename_i l2 heq
      rcases Option.map_eq_some'.mp heq with ⟨r0, _, rfl⟩
      exact ih _ (mergeAdjacent_noadj r0)

theorem runsToSegments_head :
    ∀ (t : ℤ) (l : String) (rest : List (ℤ × String)) (d : ℤ),
      ∃ s r2, runsToSegments ((t, l) :: rest) d = s :: r2 ∧ s.label = l := by
  intro t l rest d
  cases rest with
  | nil => exact ⟨⟨t, d, l⟩, [], rfl, rfl⟩
  | cons q rest2 =>
    obtain ⟨t2, l2⟩ := q
    exact ⟨⟨t, t2, l⟩, runsToSegments ((t2, l2) :: rest2) d, rfl, rfl⟩

theorem runsToSegments_noadj :
    ∀ (rs : List (ℤ × String)) (d : ℤ),
      List.Chain' (fun p q : ℤ × String => p.2 ≠ q.2) rs →
      noAdjEq (runsToSegments rs d) := by
  intro rs
  induction rs with
  | nil => intro d _; exact List.chain'_nil
  | cons p rest ih =>
    obtain ⟨t, l⟩ := p
    intro d hchain
    cases rest with
    | nil => exact List.chain'_singleton _
    | cons q rest2 =>
      obtain ⟨t2, l2⟩ := q
      rcases List.chain'_cons.mp hchain with ⟨hne, hchain2⟩
      show noAdjEq (⟨t, t2, l⟩ :: runsToSegments ((t2, l2) :: rest2) d)
      rcases runsToSegments_head t2 l2 rest2 d with ⟨s, r2, he, hl⟩
      rw [he]
      refine List.chain'_cons.mpr ⟨?_, he ▸ ih d hchain2⟩
      show l ≠ s.label
      rw [hl]
      exact hne

theorem boundAux_label_chain :
    ∀ (fs : List ChordFrame) (l : String) (t : ℤ),
      List.Chain' (fun p q : ℤ × String => p.2 ≠ q.2) ((t, l) :: boundAux l fs) := by
  intro fs
  induction fs with
  | nil => intro l t; exact List.chain'_singleton _
  | cons f fs ih =>
    intro l t
    unfold boundAux
    split
    · exact ih l t
    · exact List.chain'_cons.mpr ⟨fun he => (by assumption : ¬f.label = l) he.symm,
        ih f.label f.timestamp⟩

theorem framesToSegments_noadj (frames : List ChordFrame) (d : ℤ) :
    noAdjEq (framesToSegments frames d) := by
  cases frames with
  | nil => exact List.chain'_singleton _
  | cons f fs =>
    exact runsToSegments_noadj _ d (boundAux_label_chain fs f.label 0)

/-- Claim C3: SegmentMerger is idempotent — re-running the segment-level
merge/short-segment-absorption algorithm on its own output returns the
same segment sequence (and, being a pure function, the output is
deterministic given identical input). -/
theorem segment_merger_idempotent (frames : List ChordFrame) (d : ℤ) :
    segmentPostprocess (segmentMerger frames d) = segmentMerger frames d := by
  have hnoadj : noAdjEq (segmentMerger frames d) :=
    segLoop_noadj _ _ (framesToSegments_noadj frames d)
  have hfix : absorbStep (segmentMerger frames d) = none :=
    segLoop_fix _ _ (le_refl _)
  unfold segmentPostprocess
  rw [mergeAdjacent_id hnoadj]
  unfold absorbShort
  exact segLoop_of_none hfix _
